import Mathlib

/-!
Verification development for the closure-graph enrichment pipeline in
`pkg/nix/cmd/closure.go`.

The Go code is shallowly embedded as pure Lean functions.  Filesystem
access (`os.ReadDir`, `os.Readlink`, `os.ReadFile`, the NAR dump of a
path) is abstracted as a record `FS` of fallible functions, and the
external pure primitives (SHA-256 + hex encoding, SHA-256 + nixbase32
encoding, JSON unmarshalling of an image manifest) are passed as
function parameters, so that every theorem quantifies over them.
Strings are manipulated through their character lists so that all
definitions evaluate by kernel reduction.
-/

namespace Bsf

/-- Model of Go `strings.TrimPrefix`: strip `pre` from the front of `s`
when it is a prefix, otherwise return `s` unchanged.  `stripPre` returns
the remainder when the candidate prefix matches. -/
def stripPre : List Char → List Char → Option (List Char)
  | s, [] => some s
  | [], _ :: _ => none
  | c :: cs, p :: ps => if c = p then stripPre cs ps else none

/-- Go `strings.TrimPrefix s pre`. -/
def trimPfx (s pre : String) : String :=
  match stripPre s.data pre.data with
  | some rest => String.mk rest
  | none => s

/-- Model of Go `strings.Split s "-"` (split around every dash, empty
segments kept, at least one segment always returned). -/
def splitDash : List Char → List (List Char)
  | [] => [[]]
  | c :: rest =>
    let r := splitDash rest
    if c = '-' then [] :: r
    else
      match r with
      | h :: t => (c :: h) :: t
      | [] => [[c]]

/-- Go `strings.Split s "-"` on strings. -/
def splitOnDash (s : String) : List String :=
  (splitDash s.data).map String.mk

/-- Go `strings.Trim s "\""`: drop leading and trailing double-quote
characters. -/
def dropQuotes (l : List Char) : List Char :=
  ((l.dropWhile (· = '"')).reverse.dropWhile (· = '"')).reverse

/-- Go `strings.Replace s "\\\"" "\"" -1`: replace every (leftmost,
non-overlapping) backslash-quote pair by a bare quote. -/
def unescapeQuotes : List Char → List Char
  | '\\' :: '"' :: rest => '"' :: unescapeQuotes rest
  | c :: rest => c :: unescapeQuotes rest
  | [] => []

/-- Embedding of `CleanNameFromGraph` (closure.go:192): first trim the
surrounding quotes, then unescape `\"` sequences. -/
def CleanNameFromGraph (s : String) : String :=
  String.mk (unescapeQuotes (dropQuotes s.data))

/-- The subset of `sbom.Purpose` values used by closure.go. -/
inductive Purpose where
  | executable
  | container
  | unknownPurpose
deriving DecidableEq

/-- Embedding of the Go `App` struct (closure.go:24).  Go zero values
become Lean default field values. -/
structure App where
  name : String := ""
  version : String := ""
  appType : Purpose := .unknownPurpose
  resultHash : String := ""
  resultDigest : String := ""
  binaryHash : String := ""
deriving DecidableEq

/-- Abstract filesystem: directory listing (`os.ReadDir`, which returns
entries sorted by filename), symlink target (`os.Readlink`), raw file
bytes (`os.ReadFile` / `os.Open` + `io.Copy`), and the NAR serialization
produced by `nar.DumpPath`. -/
structure FS where
  readDir : String → Except String (List String)
  readLink : String → Except String String
  readFileBytes : String → Except String (List UInt8)
  narDump : String → Except String (List UInt8)

/-- Embedding of `findAppType` (closure.go:243): walk the directory
entries in listing order; an entry named `bin` yields `executable`, an
entry named `manifest.json` yields `container`, otherwise keep looking;
no marker at all yields `unknownPurpose`. -/
def findAppType : List String → Purpose
  | [] => .unknownPurpose
  | f :: rest =>
    if f = "bin" then .executable
    else if f = "manifest.json" then .container
    else findAppType rest

/-- Embedding of `parseAppDetails` (closure.go:222): list the path,
classify its purpose, strip the `/nix/store/` root, split on dashes,
require at least three segments, and build the `App` record from the
first segment (digest) and last segment (version).  `Name` is never
set. -/
def parseAppDetails (fsys : FS) (path : String) : Except String App :=
  match fsys.readDir path with
  | .error e => .error e
  | .ok entries =>
    let purpose := findAppType entries
    let path2 := trimPfx path "/nix/store/"
    let parts := splitOnDash path2
    if parts.length < 3 then .error ("invalid path: " ++ path2)
    else .ok { resultDigest := parts.headD "", version := parts.getLastD "", appType := purpose }

/-- Embedding of `GetNarHashFromPath` (closure.go:144): dump the NAR
serialization of the path and digest it.  `narDigest` abstracts
`nixbase32.EncodeToString (sha256 bytes)`. -/
def GetNarHashFromPath (narDigest : List UInt8 → String) (fsys : FS) (path : String) :
    Except String String :=
  match fsys.narDump path with
  | .error e => .error e
  | .ok bs => .ok (narDigest bs)

/-- Attribute maps of graph nodes (`gographviz` `Attrs`), as partial
maps from key to value. -/
def setAttr (m : String → Option String) (k v : String) : String → Option String :=
  fun k2 => if k2 = k then some v else m k2

/-- A graph node: its display name and its attribute map. -/
structure GNode where
  name : String
  attrs : String → Option String

/-- The body of the per-node goroutine in `addNarHashToGraph`
(closure.go:121): clean the node name, hash the store path (bail out
silently on failure), record `hash`, parse the app details (bail out
silently on failure, keeping `hash`), record `name` and `version`. -/
def enrichNode (narDigest : List UInt8 → String) (fsys : FS) (node : GNode) : GNode :=
  let path := CleanNameFromGraph node.name
  match GetNarHashFromPath narDigest fsys ("/nix/store/" ++ path) with
  | .error _ => node
  | .ok hash =>
    let node1 : GNode := { node with attrs := setAttr node.attrs "hash" hash }
    match parseAppDetails fsys ("/nix/store/" ++ path) with
    | .error _ => node1
    | .ok app =>
      { node1 with attrs := setAttr (setAttr node1.attrs "name" app.name) "version" app.version }

/-- Embedding of `addNarHashToGraph` (closure.go:115).  The Go function
spawns one goroutine per node, each writing only to its own node's
attribute map, and waits on a `sync.WaitGroup` before returning; since
the per-node updates touch disjoint state, the completed enrichment is
the independent per-node update applied to every node.  The function
has no error return. -/
def addNarHashToGraph (narDigest : List UInt8 → String) (fsys : FS) (nodes : List GNode) :
    List GNode :=
  nodes.map (enrichNode narDigest fsys)

/-- The `config.digest` string of a parsed OCI image manifest
(`manifest.Config.Digest.String()`). -/
structure Manifest where
  configDigest : String

/-- Embedding of `findResultBinary` (closure.go:154): list `bin/` and
return the first entry, or fail when it is empty. -/
def findResultBinary (fsys : FS) (output symlink : String) : Except String String :=
  match fsys.readDir (output ++ symlink ++ "/bin") with
  | .error e => .error e
  | .ok [] => .error "no result binary found"
  | .ok (f :: _) => .ok f

/-- Embedding of `fileSHA256` (closure.go:168): read the file's bytes
and digest them.  `sha256hex` abstracts `hex.EncodeToString (sha256
bytes)`. -/
def fileSHA256 (sha256hex : List UInt8 → String) (fsys : FS) (filePath : String) :
    Except String String :=
  match fsys.readFileBytes filePath with
  | .error e => .error e
  | .ok bs => .ok (sha256hex bs)

/-- The loop body of `artifactHash` (closure.go:83) over the listed
entries of the output directory: the first entry named `bin` triggers
the binary branch, the first entry named `manifest.json` triggers the
manifest branch, and falling off the end returns an empty digest with
no error.  `unmarshal` abstracts `json.Unmarshal` into an image
manifest. -/
def artifactHashLoop (sha256hex : List UInt8 → String)
    (unmarshal : List UInt8 → Except String Manifest) (fsys : FS)
    (output symlink : String) : List String → Except String String
  | [] => .ok ""
  | f :: rest =>
    if f = "bin" then
      match findResultBinary fsys output symlink with
      | .error e => .error e
      | .ok binName =>
        match fileSHA256 sha256hex fsys (output ++ symlink ++ "/bin/" ++ binName) with
        | .error e => .error e
        | .ok h => .ok h
    else if f = "manifest.json" then
      match fsys.readFileBytes (output ++ symlink ++ "/manifest.json") with
      | .error e => .error e
      | .ok fbytes =>
        match unmarshal fbytes with
        | .error e => .error e
        | .ok m => .ok (trimPfx m.configDigest "sha256:")
    else artifactHashLoop sha256hex unmarshal fsys output symlink rest

/-- Embedding of `artifactHash` (closure.go:77): list the output
directory and run the recognition loop over its entries. -/
def artifactHash (sha256hex : List UInt8 → String)
    (unmarshal : List UInt8 → Except String Manifest) (fsys : FS)
    (output symlink : String) : Except String String :=
  match fsys.readDir (output ++ symlink) with
  | .error e => .error e
  | .ok files => artifactHashLoop sha256hex unmarshal fsys output symlink files

/-- Embedding of `GetAppDetails` (closure.go:203): resolve the symlink,
NAR-hash the target, parse the target's app details, and record the
hash as `ResultHash`. -/
def GetAppDetails (narDigest : List UInt8 → String) (fsys : FS) (output symlink : String) :
    Except String App :=
  match fsys.readLink (output ++ symlink) with
  | .error e => .error ("failed to read symlink: " ++ e)
  | .ok target =>
    match GetNarHashFromPath narDigest fsys target with
    | .error e => .error ("failed to get nar hash: " ++ e)
    | .ok hash =>
      match parseAppDetails fsys target with
      | .error e => .error ("failed to parse app details: " ++ e)
      | .ok app => .ok { app with resultHash := hash }

/-- Embedding of `GetRuntimeClosureGraph` (closure.go:35).  The external
`nix-store -q --graph` invocation and the gographviz parse/analyse steps
are out of scope (external collaborators per the design); their combined
outcome is the `rawGraph` parameter.  Note that the function overwrites
the parsed `Version` with the hardcoded string `"0.0.0"` and the parsed
(empty) `Name` with `appName` before enriching the graph and computing
the artifact hash. -/
def GetRuntimeClosureGraph (narDigest sha256hex : List UInt8 → String)
    (unmarshal : List UInt8 → Except String Manifest) (fsys : FS)
    (rawGraph : Except String (List GNode)) (appName output symlink : String) :
    Except String (App × List GNode) :=
  match GetAppDetails narDigest fsys output symlink with
  | .error e => .error e
  | .ok app0 =>
    let app1 := { app0 with name := appName, version := "0.0.0" }
    match rawGraph with
    | .error e => .error e
    | .ok nodes =>
      let graph := addNarHashToGraph narDigest fsys nodes
      match artifactHash sha256hex unmarshal fsys output symlink with
      | .error e => .error ("failed to get artifact hash: " ++ e)
      | .ok bh => .ok ({ app1 with binaryHash := bh }, graph)

end Bsf

namespace Bsf

/-- Byte-lexicographic strict order on character lists, modelling Go's
string ordering used by `os.ReadDir` (entries sorted by filename) and by
the NAR encoder. -/
def charsLt : List Char → List Char → Bool
  | [], [] => false
  | [], _ :: _ => true
  | _ :: _, [] => false
  | a :: as, b :: bs =>
    if a.toNat < b.toNat then true
    else if b.toNat < a.toNat then false
    else charsLt as bs

/-- Strict filename order on strings. -/
def strLt (a b : String) : Bool := charsLt a.data b.data

/-- Helper: a sorted listing that contains `bin` classifies as
executable, because no `manifest.json` entry can precede `bin`. -/
theorem findAppType_exec (entries : List String)
    (hsorted : List.Pairwise (fun a b => strLt a b = true) entries)
    (hmem : "bin" ∈ entries) : findAppType entries = .executable := by
  induction entries with
  | nil => cases hmem
  | cons f rest ih =>
    by_cases hf : f = "bin"
    · simp [findAppType, hf]
    · have hmem' : "bin" ∈ rest := by
        cases hmem with
        | head => exact absurd rfl hf
        | tail _ h => exact h
      by_cases hm : f = "manifest.json"
      · exfalso
        have := (List.pairwise_cons.mp hsorted).1 "bin" hmem'
        rw [hm] at this
        exact absurd this (by decide)
      · simp only [findAppType, if_neg hf, if_neg hm]
        exact ih (List.pairwise_cons.mp hsorted).2 hmem'

/-- Helper: a listing containing `manifest.json` but no `bin` classifies
as container. -/
theorem findAppType_container (entries : List String)
    (hman : "manifest.json" ∈ entries) (hbin : "bin" ∉ entries) :
    findAppType entries = .container := by
  induction entries with
  | nil => cases hman
  | cons f rest ih =>
    have hf : f ≠ "bin" := fun h => hbin (h ▸ List.mem_cons_self f rest)
    by_cases hm : f = "manifest.json"
    · simp [findAppType, if_neg hf, hm]
    · have hman' : "manifest.json" ∈ rest := by
        cases hman with
        | head => exact absurd rfl hm
        | tail _ h => exact h
      simp only [findAppType, if_neg hf, if_neg hm]
      exact ih hman' (fun h => hbin (List.mem_cons_of_mem f h))

/-- Helper: a listing with neither marker classifies as unknown. -/
theorem findAppType_unknown (entries : List String)
    (hbin : "bin" ∉ entries) (hman : "manifest.json" ∉ entries) :
    findAppType entries = .unknownPurpose := by
  induction entries with
  | nil => rfl
  | cons f rest ih =>
    have hf : f ≠ "bin" := fun h => hbin (h ▸ List.mem_cons_self f rest)
    have hm : f ≠ "manifest.json" := fun h => hman (h ▸ List.mem_cons_self f rest)
    simp only [findAppType, if_neg hf, if_neg hm]
    exact ih (fun h => hbin (List.mem_cons_of_mem f h))
      (fun h => hman (List.mem_cons_of_mem f h))

/-- Helper: a successful parse fixes the `App` record's fields: name is
left at its zero value, the purpose is the classification of the listed
entries, and digest/version come from the dash-split. -/
theorem parseAppDetails_ok (fsys : FS) (path : String) (entries : List String) (app : App)
    (hread : fsys.readDir path = .ok entries)
    (hok : parseAppDetails fsys path = .ok app) :
    app.name = "" ∧ app.appType = findAppType entries ∧
    app.version = (splitOnDash (trimPfx path "/nix/store/")).getLastD "" ∧
    app.resultDigest = (splitOnDash (trimPfx path "/nix/store/")).headD "" := by
  simp only [parseAppDetails, hread] at hok
  split at hok
  · cases hok
  · cases hok
    exact ⟨rfl, rfl, rfl, rfl⟩

end Bsf

namespace Bsf

/-- Claim C3 (counterexample): on the label consisting of the literal
characters backslash, quote, `/nix/store/abc`, backslash, quote,
`CleanNameFromGraph` does NOT return `/nix/store/abc` — the trim of
surrounding quote characters happens before unescaping, so the escaped
wrapping quotes are not fully removed. -/
theorem c3_counterexample :
    CleanNameFromGraph "\\\"/nix/store/abc\\\"" ≠ "/nix/store/abc" := by decide

/-- Claim C3 (amended): on that label, `CleanNameFromGraph` returns the
string quote, `/nix/store/abc`, backslash: the trailing bare quote is
trimmed, the leading escaped quote is unescaped to a bare quote, and the
trailing backslash survives. -/
theorem c3_amended :
    CleanNameFromGraph "\\\"/nix/store/abc\\\"" = "\"/nix/store/abc\\" := by decide

/-- Claim C4: on any path whose remainder after stripping the store
root splits on dashes into fewer than 3 segments, `parseAppDetails`
never succeeds, and whenever the directory listing itself succeeds it
fails with exactly the invalid-path error naming the (stripped) path. -/
theorem c4_invalid_path (fsys : FS) (path : String)
    (hshort : (splitOnDash (trimPfx path "/nix/store/")).length < 3) :
    (∀ app, parseAppDetails fsys path ≠ .ok app) ∧
    (∀ entries, fsys.readDir path = .ok entries →
      parseAppDetails fsys path = .error ("invalid path: " ++ trimPfx path "/nix/store/")) := by
  constructor
  · intro app hok
    cases hread : fsys.readDir path with
    | error e => simp [parseAppDetails, hread] at hok
    | ok entries =>
      simp only [parseAppDetails, hread] at hok
      rw [if_pos hshort] at hok
      cases hok
  · intro entries hread
    simp only [parseAppDetails, hread]
    rw [if_pos hshort]

/-- Claim C4 witness: the spec's example `/store/onlyonepart` (one
segment) is rejected with the invalid-path error even on a filesystem
where the listing succeeds. -/
theorem c4_invalid_path_witness :
    (∀ app, parseAppDetails ⟨fun _ => .ok [], fun _ => .error "", fun _ => .error "",
        fun _ => .error ""⟩ "/store/onlyonepart" ≠ .ok app) ∧
    parseAppDetails ⟨fun _ => .ok [], fun _ => .error "", fun _ => .error "",
        fun _ => .error ""⟩ "/store/onlyonepart" = .error "invalid path: /store/onlyonepart" := by
  have h := c4_invalid_path
    ⟨fun _ => .ok [], fun _ => .error "", fun _ => .error "", fun _ => .error ""⟩
    "/store/onlyonepart" (by decide)
  exact ⟨h.1, h.2 [] rfl⟩

/-- Claim C5: when identity parsing succeeds on a store path whose
(sorted, as `os.ReadDir` guarantees) listing is `entries`, a `bin`
entry yields `Executable` (also when `manifest.json` is present, since
`bin` sorts before `manifest.json`), a `manifest.json` entry without
`bin` yields `Container`, and neither marker yields `Unknown`. -/
theorem c5_app_type (fsys : FS) (path : String) (entries : List String) (app : App)
    (hread : fsys.readDir path = .ok entries)
    (hsorted : List.Pairwise (fun a b => strLt a b = true) entries)
    (hok : parseAppDetails fsys path = .ok app) :
    ("bin" ∈ entries → app.appType = .executable) ∧
    ("manifest.json" ∈ entries → "bin" ∉ entries → app.appType = .container) ∧
    ("bin" ∉ entries → "manifest.json" ∉ entries → app.appType = .unknownPurpose) := by
  have htype := (parseAppDetails_ok fsys path entries app hread hok).2.1
  refine ⟨fun hbin => ?_, fun hman hbin => ?_, fun hbin hman => ?_⟩
  · rw [htype]; exact findAppType_exec entries hsorted hbin
  · rw [htype]; exact findAppType_container entries hman hbin
  · rw [htype]; exact findAppType_unknown entries hbin hman

/-- Claim C5 witness: a store path listing both `bin` and
`manifest.json` (in sorted listing order) parses as `Executable`. -/
theorem c5_app_type_witness :
    ("bin" ∈ ["bin", "manifest.json"] →
      (App.mk "" "1.2.3" .executable "" "xyz123" "").appType = .executable) ∧
    ("manifest.json" ∈ ["bin", "manifest.json"] → "bin" ∉ ["bin", "manifest.json"] →
      (App.mk "" "1.2.3" .executable "" "xyz123" "").appType = .container) ∧
    ("bin" ∉ ["bin", "manifest.json"] → "manifest.json" ∉ ["bin", "manifest.json"] →
      (App.mk "" "1.2.3" .executable "" "xyz123" "").appType = .unknownPurpose) := by
  exact c5_app_type
    ⟨fun _ => .ok ["bin", "manifest.json"], fun _ => .error "", fun _ => .error "",
      fun _ => .error ""⟩
    "/nix/store/xyz123-mytool-1.2.3" ["bin", "manifest.json"]
    (App.mk "" "1.2.3" .executable "" "xyz123" "") rfl (by decide) rfl

end Bsf

namespace Bsf

/-- Helper: when the output listing has no `bin` entry but has a
`manifest.json` entry, the artifact-hash loop takes the manifest
branch: it reads `manifest.json`, unmarshals it, and returns the
config digest with its `sha256:` algorithm prefix stripped. -/
theorem artifactHashLoop_manifest (sha256hex : List UInt8 → String)
    (unmarshal : List UInt8 → Except String Manifest) (fsys : FS)
    (output symlink : String) (entries : List String) (fbytes : List UInt8) (m : Manifest)
    (hnobin : "bin" ∉ entries) (hman : "manifest.json" ∈ entries)
    (hfile : fsys.readFileBytes (output ++ symlink ++ "/manifest.json") = .ok fbytes)
    (hparse : unmarshal fbytes = .ok m) :
    artifactHashLoop sha256hex unmarshal fsys output symlink entries =
      .ok (trimPfx m.configDigest "sha256:") := by
  induction entries with
  | nil => cases hman
  | cons f rest ih =>
    have hf : f ≠ "bin" := fun h => hnobin (h ▸ List.mem_cons_self f rest)
    by_cases hm : f = "manifest.json"
    · simp [artifactHashLoop, if_neg hf, hm, hfile, hparse]
    · have hman' : "manifest.json" ∈ rest := by
        cases hman with
        | head => exact absurd rfl hm
        | tail _ h => exact h
      simp only [artifactHashLoop, if_neg hf, if_neg hm]
      exact ih (fun h => hnobin (List.mem_cons_of_mem f h)) hman'

/-- Claim C6: an output directory with a `manifest.json` entry and no
`bin` entry, whose manifest unmarshals with config digest
`sha256:deadbeef`, resolves to the artifact digest `deadbeef` with no
error. -/
theorem c6_manifest_digest (sha256hex : List UInt8 → String)
    (unmarshal : List UInt8 → Except String Manifest) (fsys : FS)
    (output symlink : String) (entries : List String) (fbytes : List UInt8)
    (hread : fsys.readDir (output ++ symlink) = .ok entries)
    (hnobin : "bin" ∉ entries) (hman : "manifest.json" ∈ entries)
    (hfile : fsys.readFileBytes (output ++ symlink ++ "/manifest.json") = .ok fbytes)
    (hparse : unmarshal fbytes = .ok ⟨"sha256:deadbeef"⟩) :
    artifactHash sha256hex unmarshal fsys output symlink = .ok "deadbeef" := by
  simp only [artifactHash, hread]
  have h := artifactHashLoop_manifest sha256hex unmarshal fsys output symlink entries
    fbytes ⟨"sha256:deadbeef"⟩ hnobin hman hfile hparse
  rw [h]
  rfl

/-- Claim C6 witness: a concrete output directory containing only
`manifest.json` with config digest `sha256:deadbeef` resolves to
`deadbeef`. -/
theorem c6_manifest_digest_witness :
    artifactHash (fun _ => "") (fun _ => .ok ⟨"sha256:deadbeef"⟩)
      ⟨fun _ => .ok ["manifest.json"], fun _ => .error "", fun _ => .ok [], fun _ => .error ""⟩
      "result" "" = .ok "deadbeef" := by
  exact c6_manifest_digest (fun _ => "") (fun _ => .ok ⟨"sha256:deadbeef"⟩)
    ⟨fun _ => .ok ["manifest.json"], fun _ => .error "", fun _ => .ok [], fun _ => .error ""⟩
    "result" "" ["manifest.json"] [] rfl (by decide) (by decide) rfl rfl

/-- Helper: the artifact-hash loop over entries with neither marker
falls off the end and returns the empty digest. -/
theorem artifactHashLoop_empty (sha256hex : List UInt8 → String)
    (unmarshal : List UInt8 → Except String Manifest) (fsys : FS)
    (output symlink : String) (entries : List String)
    (hnobin : "bin" ∉ entries) (hnoman : "manifest.json" ∉ entries) :
    artifactHashLoop sha256hex unmarshal fsys output symlink entries = .ok "" := by
  induction entries with
  | nil => rfl
  | cons f rest ih =>
    have hf : f ≠ "bin" := fun h => hnobin (h ▸ List.mem_cons_self f rest)
    have hm : f ≠ "manifest.json" := fun h => hnoman (h ▸ List.mem_cons_self f rest)
    simp only [artifactHashLoop, if_neg hf, if_neg hm]
    exact ih (fun h => hnobin (List.mem_cons_of_mem f h))
      (fun h => hnoman (List.mem_cons_of_mem f h))

/-- Claim C7: an output directory whose listing has neither a `bin`
entry nor a `manifest.json` entry resolves to the empty artifact digest
with no error. -/
theorem c7_no_shape (sha256hex : List UInt8 → String)
    (unmarshal : List UInt8 → Except String Manifest) (fsys : FS)
    (output symlink : String) (entries : List String)
    (hread : fsys.readDir (output ++ symlink) = .ok entries)
    (hnobin : "bin" ∉ entries) (hnoman : "manifest.json" ∉ entries) :
    artifactHash sha256hex unmarshal fsys output symlink = .ok "" := by
  simp only [artifactHash, hread]
  exact artifactHashLoop_empty sha256hex unmarshal fsys output symlink entries hnobin hnoman

/-- Claim C7 witness: a concrete output directory holding only
unrelated entries resolves to the empty digest with no error. -/
theorem c7_no_shape_witness :
    artifactHash (fun _ => "") (fun _ => .error "")
      ⟨fun _ => .ok ["lib", "share"], fun _ => .error "", fun _ => .error "",
        fun _ => .error ""⟩ "result" "" = .ok "" := by
  exact c7_no_shape (fun _ => "") (fun _ => .error "")
    ⟨fun _ => .ok ["lib", "share"], fun _ => .error "", fun _ => .error "",
      fun _ => .error ""⟩ "result" "" ["lib", "share"] rfl (by decide) (by decide)

end Bsf

namespace Bsf

/-- Helper: looking up the key just written. -/
theorem setAttr_same (m : String → Option String) (k v : String) : setAttr m k v k = some v := by
  simp [setAttr]

/-- Helper: writing one key leaves every other key unchanged. -/
theorem setAttr_other (m : String → Option String) (k v k2 : String) (h : k2 ≠ k) :
    setAttr m k v k2 = m k2 := by
  simp [setAttr, h]

/-- Helper: a successful identity parse always leaves `Name` at its
zero value, whatever the filesystem and path. -/
theorem parseAppDetails_name (fsys : FS) (path : String) (app : App)
    (hok : parseAppDetails fsys path = .ok app) : app.name = "" := by
  cases hread : fsys.readDir path with
  | error e => simp [parseAppDetails, hread] at hok
  | ok entries => exact (parseAppDetails_ok fsys path entries app hread hok).1

/-- Claim C10: when both hashing and identity parsing succeed for a
node, the enrichment writes the `name` attribute, but its value is
always the empty string, because `parseAppDetails` populates only
digest, version and app type and never `Name`. -/
theorem c10_name_attr_empty (narDigest : List UInt8 → String) (fsys : FS) (node : GNode)
    (hash : String) (app : App)
    (hhash : GetNarHashFromPath narDigest fsys
      ("/nix/store/" ++ CleanNameFromGraph node.name) = .ok hash)
    (hparse : parseAppDetails fsys ("/nix/store/" ++ CleanNameFromGraph node.name) = .ok app) :
    (enrichNode narDigest fsys node).attrs "name" = some "" := by
  have hname := parseAppDetails_name fsys _ app hparse
  simp only [enrichNode, hhash, hparse]
  rw [setAttr_other _ _ _ _ (by decide), setAttr_same, hname]

/-- Claim C10 witness: a concrete successfully-enriched node carries
the attribute `name` with the empty string as its value. -/
theorem c10_name_attr_empty_witness :
    (enrichNode (fun _ => "narhash")
      ⟨fun p => if p = "/nix/store/xyz123-mytool-1.2.3" then .ok ["bin"] else .error "missing",
        fun _ => .error "", fun _ => .error "",
        fun p => if p = "/nix/store/xyz123-mytool-1.2.3" then .ok [3] else .error "missing"⟩
      ⟨"xyz123-mytool-1.2.3", fun _ => none⟩).attrs "name" = some "" := by
  exact c10_name_attr_empty (fun _ => "narhash")
    ⟨fun p => if p = "/nix/store/xyz123-mytool-1.2.3" then .ok ["bin"] else .error "missing",
      fun _ => .error "", fun _ => .error "",
      fun p => if p = "/nix/store/xyz123-mytool-1.2.3" then .ok [3] else .error "missing"⟩
    ⟨"xyz123-mytool-1.2.3", fun _ => none⟩ "narhash"
    (App.mk "" "1.2.3" .executable "" "xyz123" "") rfl rfl

/-- Claim C2: enriching a graph where exactly node `K`'s store path is
missing (its NAR dump fails) while all other nodes hash and parse
successfully yields a graph of the same length in which node `K`
carries none of the `hash`/`name`/`version` attributes (given it
started without them) while every other node carries all three; the
enrichment itself is a total function with no error outcome. -/
theorem c2_missing_node (narDigest : List UInt8 → String) (fsys : FS)
    (nodes : List GNode) (K : Nat) (nK : GNode) (e : String)
    (hK : nodes[K]? = some nK)
    (hmiss : fsys.narDump ("/nix/store/" ++ CleanNameFromGraph nK.name) = .error e)
    (hattrs : nK.attrs "hash" = none ∧ nK.attrs "name" = none ∧ nK.attrs "version" = none)
    (hothers : ∀ i nI, i ≠ K → nodes[i]? = some nI →
      (∃ h, fsys.narDump ("/nix/store/" ++ CleanNameFromGraph nI.name) = .ok h) ∧
      (∃ app, parseAppDetails fsys ("/nix/store/" ++ CleanNameFromGraph nI.name) = .ok app)) :
    (addNarHashToGraph narDigest fsys nodes).length = nodes.length ∧
    (∀ nK2, (addNarHashToGraph narDigest fsys nodes)[K]? = some nK2 →
      nK2.attrs "hash" = none ∧ nK2.attrs "name" = none ∧ nK2.attrs "version" = none) ∧
    (∀ i nI2, i ≠ K → (addNarHashToGraph narDigest fsys nodes)[i]? = some nI2 →
      (nI2.attrs "hash").isSome ∧ (nI2.attrs "name").isSome ∧
      (nI2.attrs "version").isSome) := by
  refine ⟨List.length_map nodes _, ?_, ?_⟩
  · intro nK2 hK2
    rw [addNarHashToGraph, List.getElem?_map, hK] at hK2
    cases hK2
    simp only [enrichNode, GetNarHashFromPath, hmiss]
    exact hattrs
  · intro i nI2 hne hI2
    rw [addNarHashToGraph, List.getElem?_map] at hI2
    cases hI : nodes[i]? with
    | none => rw [hI] at hI2; cases hI2
    | some nI =>
      rw [hI] at hI2
      cases hI2
      obtain ⟨⟨hsh, hok⟩, ⟨app, hparse⟩⟩ := hothers i nI hne hI
      simp only [enrichNode, GetNarHashFromPath, hok, hparse]
      refine ⟨?_, ?_, ?_⟩
      · rw [setAttr_other _ _ _ _ (by decide), setAttr_other _ _ _ _ (by decide), setAttr_same]
        rfl
      · rw [setAttr_other _ _ _ _ (by decide), setAttr_same]
        rfl
      · rw [setAttr_same]
        rfl

/-- Concrete filesystem for the C2 witness: only the second node's
store path exists. -/
def fsC2 : FS where
  readDir := fun p => if p = "/nix/store/bbb222-lib-2.0" then .ok ["bin"] else .error "missing"
  readLink := fun _ => .error "not a symlink"
  readFileBytes := fun _ => .error "missing"
  narDump := fun p => if p = "/nix/store/bbb222-lib-2.0" then .ok [7] else .error "missing"

/-- First witness node (its store path is missing). -/
def nodeC2a : GNode := ⟨"aaa111-tool-1.0", fun _ => none⟩

/-- Second witness node (its store path hashes and parses). -/
def nodeC2b : GNode := ⟨"bbb222-lib-2.0", fun _ => none⟩

/-- Claim C2 witness: on a concrete two-node graph whose first node's
path is missing, enrichment keeps the length, leaves the first node
bare and decorates the second with all three attributes. -/
theorem c2_missing_node_witness :
    (addNarHashToGraph (fun _ => "narhash") fsC2 [nodeC2a, nodeC2b]).length =
      [nodeC2a, nodeC2b].length ∧
    (∀ nK2, (addNarHashToGraph (fun _ => "narhash") fsC2 [nodeC2a, nodeC2b])[0]? = some nK2 →
      nK2.attrs "hash" = none ∧ nK2.attrs "name" = none ∧ nK2.attrs "version" = none) ∧
    (∀ i nI2, i ≠ 0 →
      (addNarHashToGraph (fun _ => "narhash") fsC2 [nodeC2a, nodeC2b])[i]? = some nI2 →
      (nI2.attrs "hash").isSome ∧ (nI2.attrs "name").isSome ∧
      (nI2.attrs "version").isSome) := by
  exact c2_missing_node (fun _ => "narhash") fsC2 [nodeC2a, nodeC2b] 0 nodeC2a "missing"
    rfl rfl ⟨rfl, rfl, rfl⟩
    (by
      intro i nI hne h
      match i, h with
      | 0, h => exact absurd rfl hne
      | 1, h =>
        cases h
        exact ⟨⟨[7], rfl⟩, App.mk "" "2.0" .executable "" "bbb222" "", rfl⟩
      | n + 2, h => exact absurd h (by simp [nodeC2a, nodeC2b]))

end Bsf

namespace Bsf

/-- Helper: when the (sorted) output listing contains `bin`, the
artifact-hash loop takes the binary branch: it picks the first entry of
`bin/` and returns the digest of that file's bytes. -/
theorem artifactHashLoop_bin (sha256hex : List UInt8 → String)
    (unmarshal : List UInt8 → Except String Manifest) (fsys : FS)
    (output symlink : String) (entries : List String) (binName : String)
    (restBins : List String) (bytes : List UInt8)
    (hsorted : List.Pairwise (fun a b => strLt a b = true) entries)
    (hmem : "bin" ∈ entries)
    (hbin : fsys.readDir (output ++ symlink ++ "/bin") = .ok (binName :: restBins))
    (hfile : fsys.readFileBytes (output ++ symlink ++ "/bin/" ++ binName) = .ok bytes) :
    artifactHashLoop sha256hex unmarshal fsys output symlink entries =
      .ok (sha256hex bytes) := by
  induction entries with
  | nil => cases hmem
  | cons f rest ih =>
    by_cases hf : f = "bin"
    · simp [artifactHashLoop, hf, findResultBinary, hbin, fileSHA256, hfile]
    · have hmem' : "bin" ∈ rest := by
        cases hmem with
        | head => exact absurd rfl hf
        | tail _ h => exact h
      by_cases hm : f = "manifest.json"
      · exfalso
        have := (List.pairwise_cons.mp hsorted).1 "bin" hmem'
        rw [hm] at this
        exact absurd this (by decide)
      · simp only [artifactHashLoop, if_neg hf, if_neg hm]
        exact ih (List.pairwise_cons.mp hsorted).2 hmem'

/-- Concrete filesystem for claim C1: the output root `result` resolves
to store path `xyz123-mytool-1.2.3` whose directory holds `bin/mytool`
with known file bytes. -/
def fsC1 : FS where
  readDir := fun p =>
    if p = "result" then .ok ["bin"]
    else if p = "/nix/store/xyz123-mytool-1.2.3" then .ok ["bin"]
    else if p = "result/bin" then .ok ["mytool"]
    else .error "missing"
  readLink := fun p =>
    if p = "result" then .ok "/nix/store/xyz123-mytool-1.2.3" else .error "not a symlink"
  readFileBytes := fun p =>
    if p = "result/bin/mytool" then .ok [109, 121] else .error "missing"
  narDump := fun p =>
    if p = "/nix/store/xyz123-mytool-1.2.3" then .ok [9] else .error "missing"

/-- Claim C1 (counterexample): in exactly the claimed scenario (output
root resolving to `xyz123-mytool-1.2.3` containing `bin/mytool`) the
returned summary's `Version` is the hardcoded `"0.0.0"`, not `"1.2.3"`:
`GetRuntimeClosureGraph` overwrites the parsed version. -/
theorem c1_counterexample :
    (GetRuntimeClosureGraph (fun _ => "narhash") (fun _ => "cafe") (fun _ => .error "not json")
        fsC1 (.ok []) "mytool" "result" "").toOption.map (fun r => r.1.version) =
      some "0.0.0" ∧
    some "0.0.0" ≠ some "1.2.3" := by
  exact ⟨rfl, by decide⟩

/-- Claim C1 (amended): with the output root resolving to store path
`xyz123-mytool-1.2.3` whose (sorted) listing contains `bin`, and
`bin/mytool` the first binary, `GetRuntimeClosureGraph` succeeds with
`Version = "0.0.0"` (hardcoded, overwriting the parsed `1.2.3`),
`AppType = Executable`, and `BinaryHash` the digest of the raw bytes of
`mytool` (`sha256hex` abstracting hex-encoded SHA-256). -/
theorem c1_amended (narDigest sha256hex : List UInt8 → String)
    (unmarshal : List UInt8 → Except String Manifest) (fsys : FS) (nodes : List GNode)
    (appName output symlink : String) (narBytes mytoolBytes : List UInt8)
    (entries : List String)
    (hlink : fsys.readLink (output ++ symlink) = .ok "/nix/store/xyz123-mytool-1.2.3")
    (hnar : fsys.narDump "/nix/store/xyz123-mytool-1.2.3" = .ok narBytes)
    (hdirT : fsys.readDir "/nix/store/xyz123-mytool-1.2.3" = .ok entries)
    (hdirO : fsys.readDir (output ++ symlink) = .ok entries)
    (hsorted : List.Pairwise (fun a b => strLt a b = true) entries)
    (hbinIn : "bin" ∈ entries)
    (hbin : fsys.readDir (output ++ symlink ++ "/bin") = .ok ["mytool"])
    (hfile : fsys.readFileBytes (output ++ symlink ++ "/bin/" ++ "mytool") = .ok mytoolBytes) :
    ∃ app graph,
      GetRuntimeClosureGraph narDigest sha256hex unmarshal fsys (.ok nodes)
        appName output symlink = .ok (app, graph) ∧
      app.version = "0.0.0" ∧ app.appType = .executable ∧
      app.binaryHash = sha256hex mytoolBytes := by
  have hexec := findAppType_exec entries hsorted hbinIn
  have hparse : parseAppDetails fsys "/nix/store/xyz123-mytool-1.2.3" =
      .ok ⟨"", "1.2.3", findAppType entries, "", "xyz123", ""⟩ := by
    simp only [parseAppDetails, hdirT]
    rfl
  have happ : GetAppDetails narDigest fsys output symlink =
      .ok ⟨"", "1.2.3", findAppType entries, narDigest narBytes, "xyz123", ""⟩ := by
    simp only [GetAppDetails, hlink, GetNarHashFromPath, hnar, hparse]
  have hart : artifactHash sha256hex unmarshal fsys output symlink =
      .ok (sha256hex mytoolBytes) := by
    simp only [artifactHash, hdirO]
    exact artifactHashLoop_bin sha256hex unmarshal fsys output symlink entries "mytool" []
      mytoolBytes hsorted hbinIn hbin hfile
  refine ⟨⟨appName, "0.0.0", findAppType entries, narDigest narBytes, "xyz123",
      sha256hex mytoolBytes⟩,
    addNarHashToGraph narDigest fsys nodes, ?_, rfl, hexec, rfl⟩
  simp only [GetRuntimeClosureGraph, happ, hart]

/-- Claim C1 witness: the amended statement evaluated on the concrete
filesystem `fsC1`. -/
theorem c1_amended_witness :
    ∃ app graph,
      GetRuntimeClosureGraph (fun _ => "narhash") (fun _ => "cafe") (fun _ => .error "not json")
        fsC1 (.ok []) "mytool" "result" "" = .ok (app, graph) ∧
      app.version = "0.0.0" ∧ app.appType = .executable ∧
      app.binaryHash = (fun _ : List UInt8 => "cafe") [109, 121] := by
  exact c1_amended (fun _ => "narhash") (fun _ => "cafe") (fun _ => .error "not json")
    fsC1 [] "mytool" "result" "" [9] [109, 121] ["bin"]
    rfl rfl rfl rfl (by decide) (by decide) rfl rfl

end Bsf

namespace Bsf

/-- A NAR filesystem object, as serialized by `nar.DumpPath`: a regular
file (executable bit and raw contents), a symlink (target), or a
directory (named entries, kept here in on-disk listing order). -/
inductive NarNode where
  | regular (isExec : Bool) (contents : List UInt8)
  | symlink (target : String)
  | directory (entries : List (String × NarNode))

/-- Entry order used by the NAR encoder: non-strict byte-lexicographic
order on the entry name. -/
def entLe (a b : String × NarNode) : Bool := !charsLt b.1.data a.1.data

mutual
/-- Canonical form of a tree: the NAR encoder emits every directory's
entries sorted by name (`os.ReadDir` returns them sorted), recursively.
Two trees have the same NAR serialization exactly when their canonical
forms agree, so `nar.DumpPath`'s output is an injective encoding of the
canonical form. -/
def sortTree : NarNode → NarNode
  | .regular x c => .regular x c
  | .symlink s => .symlink s
  | .directory es => .directory ((sortChildren es).mergeSort entLe)
/-- Canonical form of each entry of a directory. -/
def sortChildren : List (String × NarNode) → List (String × NarNode)
  | [] => []
  | (n, t) :: rest => (n, sortTree t) :: sortChildren rest
end

/-- Names of a directory's entries, in order. -/
def namesOf (es : List (String × NarNode)) : List String := es.map (·.1)

/-- Boolean duplicate-freedom of a name list. -/
def nodupB : List String → Bool
  | [] => true
  | x :: xs => !(xs.contains x) && nodupB xs

mutual
/-- Well-formedness of a tree as a filesystem object: every directory's
entry names are duplicate-free, recursively. -/
def wfTree : NarNode → Bool
  | .regular _ _ => true
  | .symlink _ => true
  | .directory es => nodupB (namesOf es) && wfChildren es
/-- Well-formedness of every entry of a directory. -/
def wfChildren : List (String × NarNode) → Bool
  | [] => true
  | (_, t) :: rest => wfTree t && wfChildren rest
end

/-- Identical logical structure and contents, regardless of on-disk
listing order: the congruence closure of swapping two adjacent
directory entries anywhere in the tree. -/
inductive TEquiv : NarNode → NarNode → Prop where
  | refl (t) : TEquiv t t
  | trans {t1 t2 t3} : TEquiv t1 t2 → TEquiv t2 t3 → TEquiv t1 t3
  | swapEntries (pre post : List (String × NarNode)) (a b : String × NarNode) :
      TEquiv (.directory (pre ++ a :: b :: post)) (.directory (pre ++ b :: a :: post))
  | congrEntry (pre post : List (String × NarNode)) (n : String) (t t' : NarNode) :
      TEquiv t t' →
      TEquiv (.directory (pre ++ (n, t) :: post)) (.directory (pre ++ (n, t') :: post))

/-- Model of `GetNarHashFromPath` on a tree: `digest` abstracts
`nixbase32.EncodeToString ∘ sha256 ∘ narEncode`, applied to the
canonical (sorted) form that `nar.DumpPath` serializes. -/
def GetNarHashFromTree (digest : NarNode → String) (t : NarNode) : String :=
  digest (sortTree t)

/-- Helper: one unfolding step of the strict byte order. -/
theorem charsLt_cons_iff (x y : Char) (xs ys : List Char) :
    charsLt (x :: xs) (y :: ys) = true ↔
      (x.toNat < y.toNat ∨ (x.toNat = y.toNat ∧ charsLt xs ys = true)) := by
  simp only [charsLt]
  by_cases h1 : x.toNat < y.toNat
  · simp [h1]
  · by_cases h2 : y.toNat < x.toNat
    · simp only [if_neg h1, if_pos h2]
      constructor
      · intro h; cases h
      · intro h; omega
    · have h3 : ¬ x.toNat = y.toNat → False := by omega
      simp only [if_neg h1, if_neg h2]
      constructor
      · intro h; right; exact ⟨by omega, h⟩
      · intro h
        rcases h with h | ⟨_, h⟩
        · omega
        · exact h

/-- Helper: the strict byte order is asymmetric. -/
theorem charsLt_asymm (a b : List Char) (hab : charsLt a b = true)
    (hba : charsLt b a = true) : False := by
  induction a generalizing b with
  | nil =>
    cases b with
    | nil => simp [charsLt] at hab
    | cons y ys => simp [charsLt] at hba
  | cons x xs ih =>
    cases b with
    | nil => simp [charsLt] at hab
    | cons y ys =>
      rw [charsLt_cons_iff] at hab hba
      rcases hab with h | ⟨he, h⟩ <;> rcases hba with h' | ⟨he', h'⟩
      · omega
      · omega
      · omega
      · exact ih ys h h'

/-- Helper: two byte strings neither of which is strictly below the
other are equal. -/
theorem charsLt_conn (a b : List Char) (hab : charsLt a b = false)
    (hba : charsLt b a = false) : a = b := by
  induction a generalizing b with
  | nil =>
    cases b with
    | nil => rfl
    | cons y ys => simp [charsLt] at hab
  | cons x xs ih =>
    cases b with
    | nil => simp [charsLt] at hba
    | cons y ys =>
      have hab' : ¬ charsLt (x :: xs) (y :: ys) = true := by simp [hab]
      have hba' : ¬ charsLt (y :: ys) (x :: xs) = true := by simp [hba]
      rw [charsLt_cons_iff] at hab' hba'
      push_neg at hab' hba'
      have hxy : x.toNat = y.toNat := by
        have h1 := hab'.1
        have h2 := hba'.1
        omega
      have hx : x = y := Char.ext (UInt32.toNat.inj hxy)
      have h1 : charsLt xs ys = false := by
        cases h : charsLt xs ys with
        | false => rfl
        | true => exact absurd h (hab'.2 hxy)
      have h2 : charsLt ys xs = false := by
        cases h : charsLt ys xs with
        | false => rfl
        | true => exact absurd h (hba'.2 hxy.symm)
      rw [hx, ih ys h1 h2]

/-- Helper: the strict byte order is transitive. -/
theorem charsLt_trans (a b c : List Char) (hab : charsLt a b = true)
    (hbc : charsLt b c = true) : charsLt a c = true := by
  induction a generalizing b c with
  | nil =>
    cases c with
    | nil =>
      cases b with
      | nil => simp [charsLt] at hab
      | cons y ys => simp [charsLt] at hbc
    | cons z zs => rfl
  | cons x xs ih =>
    cases b with
    | nil => simp [charsLt] at hab
    | cons y ys =>
      cases c with
      | nil => simp [charsLt] at hbc
      | cons z zs =>
        rw [charsLt_cons_iff] at hab hbc ⊢
        rcases hab with h | ⟨he, h⟩ <;> rcases hbc with h' | ⟨he', h'⟩
        · left; omega
        · left; omega
        · left; omega
        · right; exact ⟨by omega, ih ys zs h h'⟩

end Bsf

namespace Bsf

/-- Helper: strings with equal character data are equal. -/
theorem stringDataInj (s t : String) (h : s.data = t.data) : s = t := by
  cases s
  cases t
  cases h
  rfl

/-- Helper: the NAR entry order is transitive. -/
theorem entLe_trans (a b c : String × NarNode) (hab : entLe a b = true)
    (hbc : entLe b c = true) : entLe a c = true := by
  simp only [entLe, Bool.not_eq_true'] at hab hbc ⊢
  cases h : charsLt c.1.data a.1.data with
  | false => rfl
  | true =>
    cases h2 : charsLt b.1.data c.1.data with
    | true =>
      have h3 := charsLt_trans _ _ _ h2 h
      rw [h3] at hab
      cases hab
    | false =>
      have hbcEq : b.1.data = c.1.data := charsLt_conn _ _ h2 hbc
      rw [← hbcEq] at h
      rw [h] at hab
      cases hab

/-- Helper: the NAR entry order is total. -/
theorem entLe_total (a b : String × NarNode) : (entLe a b || entLe b a) = true := by
  simp only [entLe]
  cases hx : charsLt b.1.data a.1.data with
  | false => simp
  | true =>
    cases hy : charsLt a.1.data b.1.data with
    | false => simp [hy]
    | true => exact (charsLt_asymm _ _ hy hx).elim

/-- Helper: `namesOf` is the first projection, mapped. -/
theorem namesOf_eq (l : List (String × NarNode)) : namesOf l = l.map Prod.fst := rfl

/-- Helper: a run sorted by the non-strict entry order whose names are
duplicate-free is sorted by the strict name order. -/
theorem pairwise_strict_of_sorted_nodup (l : List (String × NarNode))
    (hle : List.Pairwise (fun a b => entLe a b = true) l)
    (hnodup : (namesOf l).Nodup) :
    List.Pairwise (fun a b : String × NarNode => charsLt a.1.data b.1.data = true) l := by
  have hne : List.Pairwise (fun a b : String × NarNode => a.1 ≠ b.1) l :=
    List.pairwise_map.mp hnodup
  refine (hle.and hne).imp ?_
  intro a b hab
  obtain ⟨h1, h2⟩ := hab
  simp only [entLe, Bool.not_eq_true'] at h1
  cases h : charsLt a.1.data b.1.data with
  | true => rfl
  | false => exact absurd (stringDataInj _ _ (charsLt_conn _ _ h h1)) h2

/-- Helper: two permuted entry lists with duplicate-free names have the
same merge sort — the canonical order of a directory's entries does not
depend on the listing order. -/
theorem mergeSort_eq_of_perm (l1 l2 : List (String × NarNode))
    (hperm : l1.Perm l2) (hnodup : (namesOf l1).Nodup) :
    l1.mergeSort entLe = l2.mergeSort entLe := by
  have hs1 := List.sorted_mergeSort entLe_trans entLe_total l1
  have hs2 := List.sorted_mergeSort entLe_trans entLe_total l2
  have hp1 : (l1.mergeSort entLe).Perm l1 := List.mergeSort_perm l1 entLe
  have hp2 : (l2.mergeSort entLe).Perm l2 := List.mergeSort_perm l2 entLe
  have hperm12 : (l1.mergeSort entLe).Perm (l2.mergeSort entLe) :=
    (hp1.trans hperm).trans hp2.symm
  have hn1 : (namesOf (l1.mergeSort entLe)).Nodup := by
    rw [namesOf_eq] at hnodup ⊢
    exact ((hp1.map Prod.fst).symm).nodup hnodup
  have hn2 : (namesOf (l2.mergeSort entLe)).Nodup := by
    rw [namesOf_eq] at hn1 ⊢
    exact (hperm12.map Prod.fst).nodup hn1
  have hstrict1 := pairwise_strict_of_sorted_nodup _ hs1 hn1
  have hstrict2 := pairwise_strict_of_sorted_nodup _ hs2 hn2
  exact @List.eq_of_perm_of_sorted _ _
    ⟨fun a b hab hba => (charsLt_asymm _ _ hab hba).elim⟩ _ _ hperm12 hstrict1 hstrict2

/-- Helper: canonicalization distributes over list append. -/
theorem sortChildren_append (l1 l2 : List (String × NarNode)) :
    sortChildren (l1 ++ l2) = sortChildren l1 ++ sortChildren l2 := by
  induction l1 with
  | nil => rfl
  | cons e rest ih =>
    obtain ⟨n, t⟩ := e
    simp [sortChildren, ih]

/-- Helper: canonicalizing the entries keeps their names. -/
theorem namesOf_sortChildren (l : List (String × NarNode)) :
    namesOf (sortChildren l) = namesOf l := by
  induction l with
  | nil => rfl
  | cons e rest ih =>
    obtain ⟨n, t⟩ := e
    simp [sortChildren, namesOf] at ih ⊢
    exact ih

/-- Helper: well-formedness of entries distributes over append. -/
theorem wfChildren_append (l1 l2 : List (String × NarNode)) :
    wfChildren (l1 ++ l2) = (wfChildren l1 && wfChildren l2) := by
  induction l1 with
  | nil => simp [wfChildren]
  | cons e rest ih =>
    obtain ⟨n, t⟩ := e
    simp [wfChildren, ih, Bool.and_assoc]

/-- Helper: the boolean duplicate-freedom test agrees with `Nodup`. -/
theorem nodupB_iff (l : List String) : nodupB l = true ↔ l.Nodup := by
  induction l with
  | nil => simp [nodupB]
  | cons x xs ih =>
    simp [nodupB, List.nodup_cons, ih, List.elem_iff]

end Bsf

namespace Bsf

/-- Helper: logical equivalence of trees preserves well-formedness. -/
theorem tequiv_wf {t1 t2 : NarNode} (h : TEquiv t1 t2) (hwf : wfTree t1 = true) :
    wfTree t2 = true := by
  induction h with
  | refl t => exact hwf
  | trans h1 h2 ih1 ih2 => exact ih2 (ih1 hwf)
  | swapEntries pre post a b =>
    obtain ⟨na, ta⟩ := a
    obtain ⟨nb, tb⟩ := b
    simp only [wfTree, Bool.and_eq_true] at hwf ⊢
    obtain ⟨hnd, hwc⟩ := hwf
    constructor
    · have hperm : (namesOf (pre ++ (na, ta) :: (nb, tb) :: post)).Perm
          (namesOf (pre ++ (nb, tb) :: (na, ta) :: post)) := by
        simp only [namesOf_eq, List.map_append, List.map_cons]
        exact List.Perm.append_left _ (List.Perm.swap _ _ _)
      exact (nodupB_iff _).mpr (hperm.nodup ((nodupB_iff _).mp hnd))
    · rw [wfChildren_append] at hwc ⊢
      simp only [wfChildren, Bool.and_eq_true] at hwc ⊢
      tauto
  | congrEntry pre post n t t' hter ih =>
    simp only [wfTree, Bool.and_eq_true] at hwf ⊢
    obtain ⟨hnd, hwc⟩ := hwf
    constructor
    · have hsame : namesOf (pre ++ (n, t) :: post) = namesOf (pre ++ (n, t') :: post) := by
        simp [namesOf_eq]
      rw [← hsame]
      exact hnd
    · rw [wfChildren_append] at hwc ⊢
      simp only [wfChildren, Bool.and_eq_true] at hwc ⊢
      exact ⟨hwc.1, ih hwc.2.1, hwc.2.2⟩

/-- Helper: logically equivalent well-formed trees have the same
canonical form, hence the same NAR serialization. -/
theorem sortTree_eq_of_tequiv {t1 t2 : NarNode} (h : TEquiv t1 t2) (hwf : wfTree t1 = true) :
    sortTree t1 = sortTree t2 := by
  induction h with
  | refl t => rfl
  | trans h1 h2 ih1 ih2 => exact (ih1 hwf).trans (ih2 (tequiv_wf h1 hwf))
  | swapEntries pre post a b =>
    obtain ⟨na, ta⟩ := a
    obtain ⟨nb, tb⟩ := b
    simp only [wfTree, Bool.and_eq_true] at hwf
    simp only [sortTree]
    congr 1
    apply mergeSort_eq_of_perm
    · rw [sortChildren_append, sortChildren_append]
      simp only [sortChildren]
      exact List.Perm.append_left _ (List.Perm.swap _ _ _)
    · rw [namesOf_sortChildren]
      exact (nodupB_iff _).mp hwf.1
  | congrEntry pre post n t t' hter ih =>
    simp only [wfTree, Bool.and_eq_true] at hwf
    have hwc := hwf.2
    rw [wfChildren_append] at hwc
    simp only [wfChildren, Bool.and_eq_true] at hwc
    simp only [sortTree]
    congr 1
    rw [sortChildren_append, sortChildren_append]
    simp only [sortChildren]
    rw [ih hwc.2.1]

/-- Claim C9: content hashing is deterministic — rehashing the same
tree gives the same digest, and two well-formed trees with identical
logical structure and contents (equal up to the on-disk listing order
of directory entries, `TEquiv`) hash to the same digest string, for any
digest function applied to the canonical serialization. -/
theorem c9_hash_deterministic (digest : NarNode → String) (t t1 t2 : NarNode)
    (hwf : wfTree t1 = true) (heq : TEquiv t1 t2) :
    GetNarHashFromTree digest t = GetNarHashFromTree digest t ∧
    GetNarHashFromTree digest t1 = GetNarHashFromTree digest t2 :=
  ⟨rfl, congrArg digest (sortTree_eq_of_tequiv heq hwf)⟩

/-- Claim C9 witness: two concrete two-entry directories listing the
same entries in opposite on-disk order hash identically. -/
theorem c9_hash_deterministic_witness :
    GetNarHashFromTree (fun n => match n with | .directory _ => "dir" | _ => "leaf")
        (.regular true [2]) =
      GetNarHashFromTree (fun n => match n with | .directory _ => "dir" | _ => "leaf")
        (.regular true [2]) ∧
    GetNarHashFromTree (fun n => match n with | .directory _ => "dir" | _ => "leaf")
        (.directory [("b", .regular false [1]), ("a", .symlink "x")]) =
      GetNarHashFromTree (fun n => match n with | .directory _ => "dir" | _ => "leaf")
        (.directory [("a", .symlink "x"), ("b", .regular false [1])]) := by
  exact c9_hash_deterministic (fun n => match n with | .directory _ => "dir" | _ => "leaf")
    (.regular true [2])
    (.directory [("b", .regular false [1]), ("a", .symlink "x")])
    (.directory [("a", .symlink "x"), ("b", .regular false [1])])
    (by simp [wfTree, wfChildren, nodupB, namesOf, List.contains])
    (TEquiv.swapEntries [] [] ("b", .regular false [1]) ("a", .symlink "x"))

end Bsf
